import Mathlib

/-!
Verification development for an APK (Alpine Linux) dependency-graph
visualisation tool (`src/main.py`).  The Python source is shallowly
embedded below: dictionaries become insertion-ordered association
lists, the recursive depth-first traversal becomes a fuel-indexed
function into `Option` (with `none` meaning the fuel bound was hit;
the Python code has no such bound, and a separate theorem shows the
bound is never hit for sources over a finite package universe), and
the BFS layering loop of the PlantUML emitter becomes a fuel-indexed
queue loop.
-/

/-- Association-list lookup, modelling Python `dict` indexing and
`dict.get`.  The first matching key wins; the dictionaries built by
this program never hold duplicate keys. -/
def dictGet {β : Type} : List (String × β) → String → Option β
  | [], _ => none
  | (k, v) :: g, key => if k = key then some v else dictGet g key

/-- A dependency graph: Python `dict` from package name to its list of
direct dependencies, kept as an association list so that insertion
order (Python dict iteration order) is preserved. -/
abbrev Graph := List (String × List String)

/-- Python `graph.get(pkg, [])`. -/
def dictGetD (g : Graph) (k : String) : List String :=
  (dictGet g k).getD []

/-- Python `graph[k] = v`: replace the value in place when the key is
present (keeping its position in iteration order), append otherwise. -/
def dictSet : Graph → String → List String → Graph
  | [], k, v => [(k, v)]
  | (k', v') :: g, k, v =>
    if k' = k then (k', v) :: g else (k', v') :: dictSet g k v

/-- The character class `[\w\.\-]` of the dependency regex in
`download_apkindex` (src/main.py line 79), over the ASCII fragment the
APKINDEX data lives in. -/
def isWordChar (c : Char) : Bool :=
  c.isAlphanum || c = '_' || c = '.' || c = '-'

/-- The character class `[=<>!]` of the dependency regex. -/
def isQualChar (c : Char) : Bool :=
  c = '=' || c = '<' || c = '>' || c = '!'

/-- The optional tail `(?:[=<>!].*?)?` of the dependency regex: with
nothing after it, the lazy `.*?` always matches the empty string, so a
successful match consumes exactly one operator character. -/
def dropQual : List Char → List Char
  | [] => []
  | q :: rest => if isQualChar q then rest else q :: rest

/-- The scan of `re.findall(r'([\w\.\-]+)(?:[=<>!].*?)?', s)` from
`download_apkindex` (src/main.py line 79).  At each scan position a
match needs a non-empty greedy `[\w\.\-]+` run, which is the captured
group; the optional tail then consumes at most one operator character
(see `dropQual`); positions that cannot start a match are skipped.
The `fuel` argument only makes the recursion structural: every step
consumes at least one input character, so along any call starting from
`findall_go s.length s` the invariant `input.length ≤ fuel` holds and
the fuel-exhaustion case coincides with the empty-input case. -/
def findall_go : Nat → List Char → List String
  | 0, _ => []
  | _ + 1, [] => []
  | fuel + 1, c :: cs =>
    if isWordChar c then
      String.mk (c :: cs.takeWhile isWordChar) ::
        findall_go fuel (dropQual (cs.dropWhile isWordChar))
    else
      findall_go fuel cs

/-- Model of `re.findall(r'([\w\.\-]+)(?:[=<>!].*?)?', s)` over the
character list `s`. -/
def findall_dep_tokens (s : List Char) : List String :=
  findall_go s.length s

/-- The dependency extraction of `download_apkindex` for one `D:` line
field (src/main.py lines 79-80): the regex findall followed by the
`[d for d in deps if d]` filter. -/
def parse_depends_field (s : String) : List String :=
  (findall_dep_tokens s.data).filter (fun d => d ≠ "")

/-- `fetch_apk_dependencies` in real mode (src/main.py lines 97-112),
with the downloaded APKINDEX (`None` on download failure) passed
explicitly in place of the function-attribute cache: if the index is
available and the package is one of its keys, return its dependency
list, otherwise report "package not found" and return `[]`. -/
def fetch_apk_dependencies (apkindex : Option Graph) (package : String) :
    List String :=
  match apkindex with
  | none => []
  | some idx =>
    match dictGet idx package with
    | some deps => deps
    | none => []

/-- The state threaded through `build_dependency_graph`
(src/main.py lines 135-170): the `visited` and `path` sets, the output
`graph` dict, and — as observational instrumentation for the spec's
"one lookup per package" property — the chronological list of packages
passed to `fetch_apk_dependencies` (one entry per lookup call, at
src/main.py line 161).  The Python sets are modelled as lists used
only through membership, insertion of an element currently absent, and
removal (`path.remove`) of an element inserted last among those
present, so list order never influences behaviour. -/
structure BuildState where
  visited : List String
  path : List String
  graph : Graph
  lookups : List String
deriving DecidableEq

/-- The fresh state created by a top-level call of
`build_dependency_graph` (default arguments `None`, lines 141-146). -/
def initState : BuildState := ⟨∅, ∅, [], []⟩

/-- The `for dep in deps:` loop of `build_dependency_graph`
(src/main.py lines 165-167), sequencing the recursive calls; `none`
(fuel exhaustion in the callee) propagates. -/
def buildStep (f : String → BuildState → Option BuildState) :
    List String → BuildState → Option BuildState
  | [], st => some st
  | d :: ds, st =>
    match f d st with
    | none => none
    | some st' => buildStep f ds st'

/-- `build_dependency_graph` (src/main.py lines 135-170): recursive DFS
with cycle handling.  `fuel` bounds the recursion depth (the Python
code is unbounded; the termination theorem shows enough fuel always
exists).  On a package already on `path` the cycle diagnostic is
printed and `graph[package]` is overwritten with `[]`; a package
already `visited` is returned unchanged; otherwise the package is added
to `visited` and `path`, its dependencies are fetched and stored, the
children are visited in order, and the package is removed from `path`. -/
def build_dependency_graph (source : String → List String) :
    Nat → String → BuildState → Option BuildState
  | 0, _, _ => none
  | fuel + 1, package, st =>
    if package ∈ st.path then
      some { st with graph := dictSet st.graph package [] }
    else if package ∈ st.visited then
      some st
    else
      let st1 : BuildState :=
        { st with visited := package :: st.visited,
                  path := package :: st.path }
      let deps := source package
      let st2 : BuildState :=
        { st1 with graph := dictSet st1.graph package deps,
                   lookups := st1.lookups ++ [package] }
      match buildStep (build_dependency_graph source fuel) deps st2 with
      | none => none
      | some st3 => some { st3 with path := st3.path.erase package }

/-- `find_reverse_dependencies` (src/main.py lines 173-188): scan the
graph in iteration order and collect every key whose dependency list
contains `target`. -/
def find_reverse_dependencies (graph : Graph) (target : String) :
    List String :=
  graph.foldl (fun reverse p => if target ∈ p.2 then reverse ++ [p.1] else reverse) []

/-- The fixed five-colour palette of `generate_plantuml`
(src/main.py line 195). -/
def colors : List String :=
  ["#FF6B6B", "#4ECDC4", "#45B7D1", "#96CEB4", "#FFEAA7"]

/-- The `for dep in graph.get(pkg, [])` body of the BFS in
`generate_plantuml` (src/main.py lines 209-212): each dependency not
yet levelled gets `level + 1` and is appended to the queue. -/
def bfs_step (level : Nat) :
    List String → List (String × Nat) → List (String × Nat) →
    List (String × Nat) × List (String × Nat)
  | [], queue, levels => (queue, levels)
  | dep :: ds, queue, levels =>
    if (dictGet levels dep).isSome then
      bfs_step level ds queue levels
    else
      bfs_step level ds (queue ++ [(dep, level + 1)]) (levels ++ [(dep, level + 1)])

/-- The `while queue:` loop of the BFS in `generate_plantuml`
(src/main.py lines 207-212), fuel-indexed; each iteration pops the
front of the queue and runs `bfs_step` on its stored dependencies. -/
def bfs_loop (graph : Graph) :
    Nat → List (String × Nat) → List (String × Nat) →
    Option (List (String × Nat))
  | _, [], levels => some levels
  | 0, _ :: _, _ => none
  | fuel + 1, (pkg, level) :: queue, levels =>
    let p := bfs_step level (dictGetD graph pkg) queue levels
    bfs_loop graph fuel p.1 p.2

/-- The BFS level computation of `generate_plantuml`
(src/main.py lines 197-212): the root is the first key of the graph
(`""` when the graph is empty); the Python `if root:` guard skips the
whole BFS when the root is the empty string, leaving `levels` empty. -/
def bfs_levels (graph : Graph) (fuel : Nat) :
    Option (List (String × Nat)) :=
  match graph with
  | [] => some []
  | (root, _) :: _ =>
    if root = "" then some []
    else bfs_loop graph fuel [(root, 0)] [(root, 0)]

/-- The colour-tier computation of `generate_plantuml`
(src/main.py line 228): `min(levels.get(pkg, 0), len(colors) - 1)`. -/
def tier_index (levels : List (String × Nat)) (pkg : String) : Nat :=
  min ((dictGet levels pkg).getD 0) (colors.length - 1)

/-- One dependency edge of a dependency source: `b` is listed among the
direct dependencies of `a`. -/
def DepStep (source : String → List String) (a b : String) : Prop :=
  b ∈ source a

/-- `p` is reachable from `root` through the dependency source. -/
def Reaches (source : String → List String) (root p : String) : Prop :=
  Relation.ReflTransGen (DepStep source) root p

/-- The dependency relation described by a source is acyclic. -/
def AcyclicSource (source : String → List String) : Prop :=
  ∀ p, ¬ Relation.TransGen (DepStep source) p p

/-- One stored edge of a finished dependency graph. -/
def GStep (graph : Graph) (a b : String) : Prop :=
  b ∈ dictGetD graph a

/-- `n` is reachable from `root` through edges stored in the graph. -/
def GReaches (graph : Graph) (root n : String) : Prop :=
  Relation.ReflTransGen (GStep graph) root n

/-- The dependency source of the spec's cycle example:
`A -> [B]`, `B -> [A]`, every other package empty. -/
def cycle_source : String → List String := fun p =>
  if p = "A" then ["B"] else if p = "B" then ["A"] else []

/-- A dependency source with a cycle `A -> C -> A` reachable from the
root `R`, and a second, later, non-cyclic path `R -> B -> A` to the
cycle participant `A`. -/
def rejoin_source : String → List String := fun p =>
  if p = "R" then ["A", "B"]
  else if p = "A" then ["C"]
  else if p = "C" then ["A"]
  else if p = "B" then ["A"]
  else []

/-- Relates traversal states that agree except possibly on the lookup
log (the instrumentation component of `BuildState`). -/
def EqvNoLog (s t : BuildState) : Prop :=
  s.visited = t.visited ∧ s.path = t.path ∧ s.graph = t.graph

/-- `EqvNoLog` lifted to optional traversal results. -/
def OEqvNoLog : Option BuildState → Option BuildState → Prop
  | none, none => True
  | some s, some t => EqvNoLog s t
  | _, _ => False

/-- Growth of the traversal state across one completed
`build_dependency_graph` call: `visited` only grows, `path` is restored
to its entry value, and the lookup log is only appended to. -/
def StepOK (s s' : BuildState) : Prop :=
  s.visited ⊆ s'.visited ∧ s'.path = s.path ∧ ∃ l, s'.lookups = s.lookups ++ l

/-- Loop invariant of the BFS of `generate_plantuml`: the root carries
level 0, queue entries carry their recorded level, every levelled
non-root node has a levelled graph-parent at least one level below,
and every levelled node is reachable from the root through stored
edges. -/
def BfsInv (graph : Graph) (root : String)
    (queue levels : List (String × Nat)) : Prop :=
  dictGet levels root = some 0 ∧
  (∀ e ∈ queue, dictGet levels e.1 = some e.2) ∧
  (∀ e ∈ levels, e.1 ≠ root →
    ∃ k Lk, dictGet levels k = some Lk ∧ e.1 ∈ dictGetD graph k ∧ Lk + 1 ≤ e.2) ∧
  (∀ e ∈ levels, GReaches graph root e.1)

/-- Invariant tying the lookup log to the `visited` set: a package has
been passed to the dependency lookup exactly when it is in `visited`,
and no package was looked up twice. -/
def LookVis (s : BuildState) : Prop :=
  (∀ x, x ∈ s.lookups ↔ x ∈ s.visited) ∧ s.lookups.Nodup

/-! ### Helper lemmas -/

theorem stepOK_rfl (s : BuildState) : StepOK s s :=
  ⟨List.Subset.refl _, rfl, [], by simp⟩

theorem stepOK_trans {s t u : BuildState} (h1 : StepOK s t) (h2 : StepOK t u) :
    StepOK s u := by
  obtain ⟨hv1, hp1, l1, hl1⟩ := h1
  obtain ⟨hv2, hp2, l2, hl2⟩ := h2
  exact ⟨hv1.trans hv2, hp2.trans hp1, l1 ++ l2, by simp [hl2, hl1]⟩

theorem dictGet_append_some {β : Type} {l : List (String × β)} {k : String}
    {v : β} (h : dictGet l k = some v) (l' : List (String × β)) :
    dictGet (l ++ l') k = some v := by
  induction l with
  | nil => simp [dictGet] at h
  | cons e rest ih =>
    obtain ⟨k', v'⟩ := e
    simp only [dictGet, List.cons_append] at h ⊢
    by_cases hk : k' = k
    · simpa [hk] using h
    · simp only [hk, if_false] at h ⊢
      exact ih h

theorem dictGet_append_none {β : Type} {l : List (String × β)} {k : String}
    (h : dictGet l k = none) (l' : List (String × β)) :
    dictGet (l ++ l') k = dictGet l' k := by
  induction l with
  | nil => simp
  | cons e rest ih =>
    obtain ⟨k', v'⟩ := e
    simp only [dictGet, List.cons_append] at h ⊢
    by_cases hk : k' = k
    · simp [hk] at h
    · simp only [hk, if_false] at h ⊢
      exact ih h

theorem dictGet_mem {β : Type} {l : List (String × β)} {k : String} {v : β}
    (h : dictGet l k = some v) : (k, v) ∈ l := by
  induction l with
  | nil => simp [dictGet] at h
  | cons e rest ih =>
    obtain ⟨k', v'⟩ := e
    simp only [dictGet] at h
    by_cases hk : k' = k
    · simp only [hk, if_true] at h
      obtain ⟨rfl⟩ := h
      simp [hk]
    · simp only [hk, if_false] at h
      exact List.mem_cons_of_mem _ (ih h)

theorem buildStep_stepOK {f : String → BuildState → Option BuildState}
    (hf : ∀ d s s', f d s = some s' → StepOK s s') :
    ∀ (ds : List String) (s s' : BuildState),
      buildStep f ds s = some s' → StepOK s s' := by
  intro ds
  induction ds with
  | nil =>
    intro s s' h
    simp only [buildStep, Option.some_inj] at h
    exact h ▸ stepOK_rfl s
  | cons d ds ihds =>
    intro s s' h
    simp only [buildStep] at h
    cases hd : f d s with
    | none => rw [hd] at h; simp at h
    | some s1 =>
      rw [hd] at h
      exact stepOK_trans (hf d s s1 hd) (ihds s1 s' h)

theorem build_stepOK (source : String → List String) :
    ∀ (fuel : Nat) (p : String) (st st' : BuildState),
      build_dependency_graph source fuel p st = some st' → StepOK st st' := by
  intro fuel
  induction fuel with
  | zero =>
    intro p st st' h
    simp [build_dependency_graph] at h
  | succ fuel ih =>
    intro p st st' h
    simp only [build_dependency_graph] at h
    split at h
    · rw [Option.some_inj] at h
      subst h
      exact ⟨List.Subset.refl _, rfl, [], by simp⟩
    · split at h
      · rw [Option.some_inj] at h
        subst h
        exact stepOK_rfl st
      · split at h
        · exact absurd h (by simp)
        · rename_i st3 hb
          rw [Option.some_inj] at h
          subst h
          have hok := buildStep_stepOK (fun d s s' hds => ih d s s' hds) _ _ _ hb
          obtain ⟨hv, hp, l, hl⟩ := hok
          refine ⟨?_, ?_, [p] ++ l, ?_⟩
          · exact fun x hx => hv (List.mem_cons_of_mem _ hx)
          · simp only [hp]
            exact List.erase_cons_head p st.path
          · simp [hl]

theorem build_zero (source : String → List String) (p : String)
    (st : BuildState) :
    build_dependency_graph source 0 p st = none := rfl

theorem build_succ (source : String → List String) (fuel : Nat) (p : String)
    (st : BuildState) :
    build_dependency_graph source (fuel + 1) p st =
      if p ∈ st.path then some { st with graph := dictSet st.graph p [] }
      else if p ∈ st.visited then some st
      else
        match buildStep (build_dependency_graph source fuel) (source p)
            ⟨p :: st.visited, p :: st.path, dictSet st.graph p (source p),
             st.lookups ++ [p]⟩ with
        | none => none
        | some st3 => some { st3 with path := st3.path.erase p } := rfl

theorem buildStep_congr_some {f g : String → BuildState → Option BuildState}
    (hfg : ∀ d s s', f d s = some s' → g d s = some s') :
    ∀ (ds : List String) (s s' : BuildState),
      buildStep f ds s = some s' → buildStep g ds s = some s' := by
  intro ds
  induction ds with
  | nil => intro s s' h; simpa [buildStep] using h
  | cons d ds ihds =>
    intro s s' h
    simp only [buildStep] at h ⊢
    cases hd : f d s with
    | none => rw [hd] at h; simp at h
    | some s1 =>
      rw [hd] at h
      rw [hfg d s s1 hd]
      exact ihds s1 s' h

theorem build_fuel_succ (source : String → List String) :
    ∀ (fuel : Nat) (p : String) (st st' : BuildState),
      build_dependency_graph source fuel p st = some st' →
      build_dependency_graph source (fuel + 1) p st = some st' := by
  intro fuel
  induction fuel with
  | zero =>
    intro p st st' h
    rw [build_zero] at h
    exact absurd h (by simp)
  | succ fuel ih =>
    intro p st st' h
    rw [build_succ] at h
    rw [build_succ]
    by_cases h1 : p ∈ st.path
    · simpa [h1] using h
    · simp only [h1, if_false] at h ⊢
      by_cases h2 : p ∈ st.visited
      · simpa [h2] using h
      · simp only [h2, if_false] at h ⊢
        cases hb : buildStep (build_dependency_graph source fuel) (source p)
            ⟨p :: st.visited, p :: st.path, dictSet st.graph p (source p),
             st.lookups ++ [p]⟩ with
        | none => rw [hb] at h; simp at h
        | some st3 =>
          rw [hb] at h
          have hb' := buildStep_congr_some (fun d s s' hds => ih d s s' hds) _ _ _ hb
          rw [hb']
          exact h

theorem build_fuel_le (source : String → List String)
    {fuel fuel' : Nat} (hle : fuel ≤ fuel') :
    ∀ {p : String} {st st' : BuildState},
      build_dependency_graph source fuel p st = some st' →
      build_dependency_graph source fuel' p st = some st' := by
  induction hle with
  | refl => exact fun h => h
  | step _ ih =>
    intro p st st' h
    exact build_fuel_succ source _ p st st' (ih h)

theorem buildStep_log_congr {f : String → BuildState → Option BuildState}
    (hf : ∀ d s t, EqvNoLog s t → OEqvNoLog (f d s) (f d t)) :
    ∀ (ds : List String) (s t : BuildState), EqvNoLog s t →
      OEqvNoLog (buildStep f ds s) (buildStep f ds t) := by
  intro ds
  induction ds with
  | nil => intro s t h; exact h
  | cons d ds ihds =>
    intro s t h
    simp only [buildStep]
    have hd := hf d s t h
    cases hfs : f d s with
    | none =>
      cases hft : f d t with
      | none => exact trivial
      | some t1 => rw [hfs, hft] at hd; exact hd.elim
    | some s1 =>
      cases hft : f d t with
      | none => rw [hfs, hft] at hd; exact hd.elim
      | some t1 =>
        rw [hfs, hft] at hd
        exact ihds s1 t1 hd

theorem build_log_congr (source : String → List String) :
    ∀ (fuel : Nat) (p : String) (s t : BuildState), EqvNoLog s t →
      OEqvNoLog (build_dependency_graph source fuel p s)
        (build_dependency_graph source fuel p t) := by
  intro fuel
  induction fuel with
  | zero =>
    intro p s t h
    rw [build_zero, build_zero]
    exact trivial
  | succ fuel ih =>
    intro p s t h
    obtain ⟨hv, hp, hg⟩ := h
    rw [build_succ, build_succ]
    by_cases h1 : p ∈ s.path
    · have h1t : p ∈ t.path := hp ▸ h1
      simp only [h1, h1t, if_true]
      exact ⟨hv, hp, by rw [hg]⟩
    · have h1t : p ∉ t.path := hp ▸ h1
      simp only [h1, h1t, if_false]
      by_cases h2 : p ∈ s.visited
      · have h2t : p ∈ t.visited := hv ▸ h2
        simp only [h2, h2t, if_true]
        exact ⟨hv, hp, hg⟩
      · have h2t : p ∉ t.visited := hv ▸ h2
        simp only [h2, h2t, if_false]
        have hstep := buildStep_log_congr (fun d s' t' h' => ih d s' t' h')
          (source p)
          ⟨p :: s.visited, p :: s.path, dictSet s.graph p (source p), s.lookups ++ [p]⟩
          ⟨p :: t.visited, p :: t.path, dictSet t.graph p (source p), t.lookups ++ [p]⟩
          ⟨by rw [hv], by rw [hp], by rw [hg]⟩
        cases hbs : buildStep (build_dependency_graph source fuel) (source p)
            ⟨p :: s.visited, p :: s.path, dictSet s.graph p (source p), s.lookups ++ [p]⟩ with
        | none =>
          cases hbt : buildStep (build_dependency_graph source fuel) (source p)
              ⟨p :: t.visited, p :: t.path, dictSet t.graph p (source p), t.lookups ++ [p]⟩ with
          | none => exact trivial
          | some t3 => rw [hbs, hbt] at hstep; exact hstep.elim
        | some s3 =>
          cases hbt : buildStep (build_dependency_graph source fuel) (source p)
              ⟨p :: t.visited, p :: t.path, dictSet t.graph p (source p), t.lookups ++ [p]⟩ with
          | none => rw [hbs, hbt] at hstep; exact hstep.elim
          | some t3 =>
            rw [hbs, hbt] at hstep
            obtain ⟨hv3, hp3, hg3⟩ := hstep
            exact ⟨hv3, by rw [hp3], hg3⟩

/-! ### Claim theorems -/

/-- C1 (amended): for the cyclic source `A -> [B]`, `B -> [A]`, the
build rooted at `A` terminates (any recursion-depth budget of at least
3 completes), but the entry overwritten to `[]` is the one of the node
re-entered on the cyclic return edge — here the root `A` itself, whose
fetched list `[B]` is destroyed — while `B` keeps its fetched list
`[A]`: the resulting graph is `{A: [], B: [A]}`, not `{A: [B], B: []}`. -/
theorem C1_cycle_example_graph (fuel : Nat) (hfuel : 3 ≤ fuel) :
    build_dependency_graph cycle_source fuel "A" initState =
      some ⟨["B", "A"], [], [("A", []), ("B", ["A"])], ["A", "B"]⟩ := by
  have hbase : build_dependency_graph cycle_source 3 "A" initState =
      some ⟨["B", "A"], [], [("A", []), ("B", ["A"])], ["A", "B"]⟩ := by decide
  exact build_fuel_le cycle_source hfuel hbase

/-- C1 witness: the amended statement at the concrete budget 3. -/
theorem C1_cycle_example_graph_witness :
    build_dependency_graph cycle_source 3 "A" initState =
      some ⟨["B", "A"], [], [("A", []), ("B", ["A"])], ["A", "B"]⟩ :=
  C1_cycle_example_graph 3 (by decide)

/-- C1 counterexample: on the source `A -> [B]`, `B -> [A]` the build
rooted at `A` stores `[]` for `A` (not the claimed `[B]`); in
particular the returned graph is not the claimed `{A: [B], B: []}`. -/
theorem C1_counterexample :
    (build_dependency_graph cycle_source 3 "A" initState).map
        (fun st => (dictGet st.graph "A", dictGet st.graph "B")) =
      some (some [], some ["A"]) ∧
    ¬ (build_dependency_graph cycle_source 3 "A" initState).map
        (fun st => (dictGet st.graph "A", dictGet st.graph "B")) =
      some (some ["B"], some []) := by decide

/-- C2 (amended): when `build_dependency_graph` enters a package `p`
currently on the traversal path it records `graph[p] = []` and returns,
but `p` is at that moment already a member of `visited` (each package
on `path` was added to both sets when first entered, and the cycle
branch removes it from neither), so any later path reaching `p` —
cyclic or not — returns at the `visited` check without re-fetching and
without touching `graph[p]`. -/
theorem C2_cycle_node_not_refetched (source : String → List String)
    (fuel : Nat) (p : String) (st : BuildState)
    (hp : p ∈ st.path) (hsub : st.path ⊆ st.visited) :
    build_dependency_graph source (fuel + 1) p st =
      some { st with graph := dictSet st.graph p [] } ∧
    p ∈ st.visited ∧
    ∀ st2 : BuildState, p ∈ st2.visited → p ∉ st2.path →
      build_dependency_graph source (fuel + 1) p st2 = some st2 := by
  refine ⟨?_, hsub hp, ?_⟩
  · rw [build_succ]
    simp [hp]
  · intro st2 h1 h2
    rw [build_succ]
    simp [h1, h2]

/-- C2 witness: the cycle branch on a concrete state with `A` on the
path, and the visited short-circuit on a concrete state with `A`
visited but off the path. -/
theorem C2_cycle_node_not_refetched_witness :
    build_dependency_graph (fun _ => []) 1 "A" ⟨["A"], ["A"], [], []⟩ =
      some ⟨["A"], ["A"], [("A", [])], []⟩ ∧
    "A" ∈ (⟨["A"], ["A"], [], []⟩ : BuildState).visited ∧
    build_dependency_graph (fun _ => []) 1 "A" ⟨["A"], [], [], []⟩ =
      some ⟨["A"], [], [], []⟩ := by
  obtain ⟨h1, h2, h3⟩ := C2_cycle_node_not_refetched (fun _ => []) 0 "A"
    ⟨["A"], ["A"], [], []⟩ (by decide) (by decide)
  exact ⟨h1, h2, h3 ⟨["A"], [], [], []⟩ (by decide) (by decide)⟩

/-- C2 counterexample: on the source `R -> [A, B]`, `A -> [C]`,
`C -> [A]`, `B -> [A]` the cycle participant `A` is reached first on
the cyclic chain `R, A, C` and later on the distinct non-cyclic path
`R, B`; the claim predicts a second lookup of `A` and a final entry
`graph[A] = [C]`, but the code looks `A` up exactly once and leaves
`graph[A] = []`. -/
theorem C2_counterexample :
    (build_dependency_graph rejoin_source 5 "R" initState).map
        (fun st => (st.lookups.count "A", dictGet st.graph "A")) =
      some (1, some []) ∧
    ¬ (build_dependency_graph rejoin_source 5 "R" initState).map
        (fun st => (st.lookups.count "A", dictGet st.graph "A")) =
      some (2, some ["C"]) := by decide

/-- C3: the dependency regex of `download_apkindex` does not strip a
trailing version/operator qualifier: on the raw entry
`libc.so.6=>1.2.3` it produces the bare name together with a spurious
extra token `1.2.3` derived from the qualifier, because the lazy `.*?`
matches the empty string and the version text is re-matched as a fresh
token.  The code's own comment (src/main.py line 78) documents the
intent `libc.so.6=>1.2.3 → libc.so.6`. -/
theorem C3_version_qualifier_not_stripped :
    parse_depends_field "libc.so.6=>1.2.3" = ["libc.so.6", "1.2.3"] := by decide

/-- C7: a package whose lookup returns nothing gets `graph[p] = []` and
the traversal continues normally; in particular a build rooted at a
package `X` absent from the APKINDEX returns exactly `{X: []}` without
failing. -/
theorem C7_missing_package_empty_entry :
    (∀ (source : String → List String) (fuel : Nat) (p : String)
        (st : BuildState),
      source p = [] → p ∉ st.path → p ∉ st.visited →
      build_dependency_graph source (fuel + 1) p st =
        some ⟨p :: st.visited, st.path, dictSet st.graph p [],
              st.lookups ++ [p]⟩) ∧
    (∀ (idx : Graph) (X : String) (fuel : Nat),
      dictGet idx X = none →
      build_dependency_graph (fetch_apk_dependencies (some idx)) (fuel + 1)
          X initState = some ⟨[X], [], [(X, [])], [X]⟩) := by
  constructor
  · intro source fuel p st hsrc hnp hnv
    rw [build_succ, hsrc]
    simp [hnp, hnv, buildStep, List.erase_cons_head]
  · intro idx X fuel hidx
    have hsrc : fetch_apk_dependencies (some idx) X = [] := by
      simp [fetch_apk_dependencies, hidx]
    rw [build_succ, hsrc]
    simp [initState, buildStep, dictSet, List.erase_cons_head]

/-- C7 witness: both parts at concrete inputs. -/
theorem C7_missing_package_empty_entry_witness :
    build_dependency_graph (fun _ => []) 1 "p" ⟨["q"], [], [], []⟩ =
      some ⟨["p", "q"], [], [("p", [])], ["p"]⟩ ∧
    build_dependency_graph (fetch_apk_dependencies (some [("a", ["b"])])) 1
        "X" initState = some ⟨["X"], [], [("X", [])], ["X"]⟩ :=
  ⟨C7_missing_package_empty_entry.1 (fun _ => []) 0 "p" ⟨["q"], [], [], []⟩
      rfl (by decide) (by decide),
   C7_missing_package_empty_entry.2 [("a", ["b"])] "X" 0 (by decide)⟩

/-- C8: against a deterministic dependency source, two top-level runs
of `build_dependency_graph` on the same root — each starting from the
fresh visited/path/graph state the Python default arguments create,
whatever instrumentation log the process has accumulated — produce
identical graph content. -/
theorem C8_build_idempotent (source : String → List String) (fuel : Nat)
    (root : String) (l1 l2 : List String) :
    (build_dependency_graph source fuel root ⟨[], [], [], l1⟩).map
        (fun st => st.graph) =
      (build_dependency_graph source fuel root ⟨[], [], [], l2⟩).map
        (fun st => st.graph) := by
  have h := build_log_congr source fuel root ⟨[], [], [], l1⟩
    ⟨[], [], [], l2⟩ ⟨rfl, rfl, rfl⟩
  cases h1 : build_dependency_graph source fuel root ⟨[], [], [], l1⟩ with
  | none =>
    cases h2 : build_dependency_graph source fuel root ⟨[], [], [], l2⟩ with
    | none => rfl
    | some t => rw [h1, h2] at h; exact h.elim
  | some s =>
    cases h2 : build_dependency_graph source fuel root ⟨[], [], [], l2⟩ with
    | none => rw [h1, h2] at h; exact h.elim
    | some t =>
      rw [h1, h2] at h
      simp [h.2.2]

/-- C10: the PlantUML emitter colours a package by
`min(levels.get(pkg, 0), len(colors) - 1)`: a levelled package gets
tier `min L 4` (the palette holds five colours), and a package without
a BFS level silently falls back to tier 0 — the root's tier — instead
of erroring. -/
theorem C10_tier_capped_with_fallback (levels : List (String × Nat))
    (pkg : String) :
    (∀ L, dictGet levels pkg = some L → tier_index levels pkg = min L 4) ∧
    (dictGet levels pkg = none → tier_index levels pkg = 0) := by
  constructor
  · intro L h
    simp [tier_index, h, colors]
  · intro h
    simp [tier_index, h, colors]

/-- C10 witness: a deep level is capped at tier 4; an unlevelled
package falls back to tier 0. -/
theorem C10_tier_capped_with_fallback_witness :
    tier_index [("A", 7)] "A" = min 7 4 ∧ tier_index [] "B" = 0 :=
  ⟨(C10_tier_capped_with_fallback [("A", 7)] "A").1 7 (by decide),
   (C10_tier_capped_with_fallback [] "B").2 (by decide)⟩

theorem reverse_foldl_eq (target : String) :
    ∀ (graph : Graph) (acc : List String),
      graph.foldl
          (fun reverse p => if target ∈ p.2 then reverse ++ [p.1] else reverse)
          acc =
        acc ++ (graph.filter (fun e => decide (target ∈ e.2))).map Prod.fst := by
  intro graph
  induction graph with
  | nil => intro acc; simp
  | cons e rest ih =>
    intro acc
    simp only [List.foldl_cons, List.filter_cons]
    by_cases he : target ∈ e.2
    · simp only [he, if_true, decide_eq_true_eq]
      rw [ih]
      simp [he]
    · simp only [he, if_false]
      rw [ih]
      simp [he]

/-- C6: `find_reverse_dependencies` returns exactly the keys whose
dependency list contains the target, in graph iteration order (the
filtered key sequence); it returns the empty list when nothing depends
on the target, and it contains no duplicates whenever the graph's keys
are duplicate-free (which the builder guarantees). -/
theorem C6_reverse_dependencies (graph : Graph) (target : String) :
    find_reverse_dependencies graph target =
      (graph.filter (fun e => decide (target ∈ e.2))).map Prod.fst ∧
    ((∀ e ∈ graph, target ∉ e.2) → find_reverse_dependencies graph target = []) ∧
    ((graph.map Prod.fst).Nodup →
      (find_reverse_dependencies graph target).Nodup) := by
  have hbase := reverse_foldl_eq target graph []
  refine ⟨by simpa [find_reverse_dependencies] using hbase, ?_, ?_⟩
  · intro hnone
    rw [find_reverse_dependencies, hbase]
    simp only [List.nil_append, List.map_eq_nil_iff, List.filter_eq_nil_iff]
    intro e he
    simpa using hnone e he
  · intro hnd
    rw [find_reverse_dependencies, hbase]
    simp only [List.nil_append]
    have hsub : (graph.filter (fun e => decide (target ∈ e.2))).map Prod.fst |>.Sublist (graph.map Prod.fst) :=
      List.Sublist.map Prod.fst (List.filter_sublist graph)
    exact hnd.sublist hsub

/-- C6 witness: the spec's diamond example (`reverseDeps(graph, D) =
[B, C]`) and an empty result for a target nothing depends on. -/
theorem C6_reverse_dependencies_witness :
    find_reverse_dependencies
        [("A", ["B", "C"]), ("B", ["D"]), ("C", ["D"]), ("D", [])] "D" =
      (([("A", ["B", "C"]), ("B", ["D"]), ("C", ["D"]), ("D", [])] : Graph).filter
          (fun e => decide ("D" ∈ e.2))).map Prod.fst ∧
    find_reverse_dependencies [("A", ["B"])] "Z" = [] ∧
    (find_reverse_dependencies
        [("A", ["B", "C"]), ("B", ["D"]), ("C", ["D"]), ("D", [])] "D").Nodup :=
  ⟨(C6_reverse_dependencies _ "D").1,
   (C6_reverse_dependencies [("A", ["B"])] "Z").2.1 (by decide),
   (C6_reverse_dependencies _ "D").2.2 (by decide)⟩

theorem buildStep_some {f : String → BuildState → Option BuildState}
    (hmono : ∀ d s s', f d s = some s' → s.visited ⊆ s'.visited) :
    ∀ (ds : List String) (s : BuildState) (V : List String),
      V ⊆ s.visited →
      (∀ d ∈ ds, ∀ s0 : BuildState, V ⊆ s0.visited →
        ∃ s', f d s0 = some s') →
      ∃ s', buildStep f ds s = some s' := by
  intro ds
  induction ds with
  | nil => intro s V hV hsome; exact ⟨s, rfl⟩
  | cons d ds ihds =>
    intro s V hV hsome
    simp only [buildStep]
    obtain ⟨s1, hs1⟩ := hsome d (by simp) s hV
    rw [hs1]
    exact ihds s1 V (hV.trans (hmono d s s1 hs1))
      (fun d' hd' s0 h => hsome d' (by simp [hd']) s0 h)

/-- C9: the traversal terminates for every dependency source over a
finite package universe `U`: any fuel (recursion-depth budget)
exceeding the number of not-yet-visited packages among `U` and the
entry package suffices, because entering a fresh node shrinks that
count (`path` membership makes a chain stop at the latest when every
package of `U` is on it); and a package already in `visited` is never
re-expanded — the call returns at once without a lookup. -/
theorem C9_termination (source : String → List String) (U : Finset String)
    (hU : ∀ p d, d ∈ source p → d ∈ U) :
    (∀ (fuel : Nat) (p : String) (st : BuildState),
        (insert p U \ st.visited.toFinset).card < fuel →
        ∃ st', build_dependency_graph source fuel p st = some st') ∧
    (∀ (fuel : Nat) (p : String) (st : BuildState), p ∈ st.visited →
        ∃ st', build_dependency_graph source (fuel + 1) p st = some st' ∧
               st'.lookups = st.lookups) := by
  constructor
  · intro fuel
    induction fuel with
    | zero => intro p st h; exact absurd h (Nat.not_lt_zero _)
    | succ fuel ih =>
      intro p st hcard
      rw [build_succ]
      by_cases h1 : p ∈ st.path
      · exact ⟨{ st with graph := dictSet st.graph p [] }, by simp [h1]⟩
      · simp only [h1, if_false]
        by_cases h2 : p ∈ st.visited
        · exact ⟨st, by simp [h2]⟩
        · simp only [h2, if_false]
          have hstrict : (U \ (p :: st.visited).toFinset).card <
              (insert p U \ st.visited.toFinset).card := by
            apply Finset.card_lt_card
            rw [Finset.ssubset_def]
            constructor
            · intro x hx
              simp only [Finset.mem_sdiff, List.toFinset_cons, Finset.mem_insert,
                List.mem_toFinset, Finset.mem_sdiff, not_or] at hx ⊢
              exact ⟨Or.inr hx.1, hx.2.2⟩
            · intro hc
              have hpB : p ∈ insert p U \ st.visited.toFinset := by
                simp [Finset.mem_sdiff, h2]
              have hpA := hc hpB
              simp [Finset.mem_sdiff] at hpA
          have hmono : ∀ d s s', build_dependency_graph source fuel d s = some s' →
              s.visited ⊆ s'.visited :=
            fun d s s' h => (build_stepOK source fuel d s s' h).1
          have hsome : ∀ d ∈ source p, ∀ s0 : BuildState,
              (p :: st.visited) ⊆ s0.visited →
              ∃ s', build_dependency_graph source fuel d s0 = some s' := by
            intro d hd s0 hs0
            apply ih d s0
            have hdU : d ∈ U := hU p d hd
            rw [Finset.insert_eq_self.mpr hdU]
            have hsub2 : U \ s0.visited.toFinset ⊆ U \ (p :: st.visited).toFinset := by
              intro x hx
              simp only [Finset.mem_sdiff, List.mem_toFinset] at hx ⊢
              exact ⟨hx.1, fun hc => hx.2 (hs0 hc)⟩
            have hle2 := Finset.card_le_card hsub2
            omega
          obtain ⟨s3, hs3⟩ := buildStep_some hmono (source p)
            ⟨p :: st.visited, p :: st.path, dictSet st.graph p (source p),
             st.lookups ++ [p]⟩
            (p :: st.visited) (fun x hx => hx) hsome
          rw [hs3]
          exact ⟨_, rfl⟩
  · intro fuel p st hv
    rw [build_succ]
    by_cases h1 : p ∈ st.path
    · exact ⟨{ st with graph := dictSet st.graph p [] }, by simp [h1], rfl⟩
    · exact ⟨st, by simp [h1, hv], rfl⟩

/-- C9 witness: the empty-dependency source over the empty universe
terminates on the root `a` with fuel 2, and a call on an
already-visited package returns without a further lookup. -/
theorem C9_termination_witness :
    (∃ st', build_dependency_graph (fun _ => []) 2 "a" initState = some st') ∧
    (∃ st', build_dependency_graph (fun _ => []) 1 "a" ⟨["a"], [], [], []⟩ =
        some st' ∧ st'.lookups = []) := by
  obtain ⟨h1, h2⟩ := C9_termination (fun _ => []) ∅
    (fun p d hd => absurd hd (List.not_mem_nil d))
  refine ⟨h1 2 "a" initState ?_, h2 0 "a" ⟨["a"], [], [], []⟩ (by decide)⟩
  simp [initState]

theorem buildStep_lookVis {f : String → BuildState → Option BuildState}
    (hf : ∀ d s s', f d s = some s' → LookVis s → LookVis s') :
    ∀ (ds : List String) (s s' : BuildState),
      buildStep f ds s = some s' → LookVis s → LookVis s' := by
  intro ds
  induction ds with
  | nil =>
    intro s s' h hs
    simp only [buildStep, Option.some_inj] at h
    exact h ▸ hs
  | cons d ds ihds =>
    intro s s' h hs
    simp only [buildStep] at h
    cases hd : f d s with
    | none => rw [hd] at h; simp at h
    | some s1 =>
      rw [hd] at h
      exact ihds s1 s' h (hf d s s1 hd hs)

theorem build_lookVis (source : String → List String) :
    ∀ (fuel : Nat) (p : String) (st st' : BuildState),
      build_dependency_graph source fuel p st = some st' →
      LookVis st → LookVis st' := by
  intro fuel
  induction fuel with
  | zero =>
    intro p st st' h _
    rw [build_zero] at h
    exact absurd h (by simp)
  | succ fuel ih =>
    intro p st st' h hst
    rw [build_succ] at h
    by_cases h1 : p ∈ st.path
    · simp only [h1, if_true, Option.some_inj] at h
      subst h
      exact hst
    · simp only [h1, if_false] at h
      by_cases h2 : p ∈ st.visited
      · simp only [h2, if_true, Option.some_inj] at h
        subst h
        exact hst
      · simp only [h2, if_false] at h
        have hst2 : LookVis ⟨p :: st.visited, p :: st.path,
            dictSet st.graph p (source p), st.lookups ++ [p]⟩ := by
          obtain ⟨hiff, hnd⟩ := hst
          constructor
          · intro x
            simp only [List.mem_append, List.mem_singleton, List.mem_cons]
            rw [hiff x]
            tauto
          · rw [List.nodup_append]
            refine ⟨hnd, List.nodup_singleton p, ?_⟩
            intro x hx
            simp only [List.mem_singleton]
            intro hxp
            subst hxp
            exact h2 ((hiff x).mp hx)
        cases hb : buildStep (build_dependency_graph source fuel) (source p)
            ⟨p :: st.visited, p :: st.path, dictSet st.graph p (source p),
             st.lookups ++ [p]⟩ with
        | none => rw [hb] at h; simp at h
        | some st3 =>
          rw [hb] at h
          rw [Option.some_inj] at h
          subst h
          have h3 := buildStep_lookVis (fun d s s' hh hls => ih d s s' hh hls)
            _ _ _ hb hst2
          exact ⟨h3.1, h3.2⟩

theorem buildStep_reach {f : String → BuildState → Option BuildState}
    (source : String → List String) (root : String)
    (hf : ∀ d s s', Reaches source root d → f d s = some s' →
      (∀ q ∈ s.visited, Reaches source root q) →
      (∀ q ∈ s'.visited, Reaches source root q)) :
    ∀ (ds : List String) (s s' : BuildState),
      (∀ d ∈ ds, Reaches source root d) →
      buildStep f ds s = some s' →
      (∀ q ∈ s.visited, Reaches source root q) →
      (∀ q ∈ s'.visited, Reaches source root q) := by
  intro ds
  induction ds with
  | nil =>
    intro s s' _ h hs
    simp only [buildStep, Option.some_inj] at h
    exact h ▸ hs
  | cons d ds ihds =>
    intro s s' hds h hs
    simp only [buildStep] at h
    cases hd : f d s with
    | none => rw [hd] at h; simp at h
    | some s1 =>
      rw [hd] at h
      exact ihds s1 s' (fun d' hd' => hds d' (by simp [hd'])) h
        (hf d s s1 (hds d (by simp)) hd hs)

theorem build_reach (source : String → List String) (root : String) :
    ∀ (fuel : Nat) (p : String) (st st' : BuildState),
      Reaches source root p →
      build_dependency_graph source fuel p st = some st' →
      (∀ q ∈ st.visited, Reaches source root q) →
      (∀ q ∈ st'.visited, Reaches source root q) := by
  intro fuel
  induction fuel with
  | zero =>
    intro p st st' _ h _
    rw [build_zero] at h
    exact absurd h (by simp)
  | succ fuel ih =>
    intro p st st' hp h hst
    rw [build_succ] at h
    by_cases h1 : p ∈ st.path
    · simp only [h1, if_true, Option.some_inj] at h
      subst h
      exact hst
    · simp only [h1, if_false] at h
      by_cases h2 : p ∈ st.visited
      · simp only [h2, if_true, Option.some_inj] at h
        subst h
        exact hst
      · simp only [h2, if_false] at h
        have hst2 : ∀ q ∈ (p :: st.visited), Reaches source root q := by
          intro q hq
          rcases List.mem_cons.mp hq with rfl | hmem
          · exact hp
          · exact hst q hmem
        cases hb : buildStep (build_dependency_graph source fuel) (source p)
            ⟨p :: st.visited, p :: st.path, dictSet st.graph p (source p),
             st.lookups ++ [p]⟩ with
        | none => rw [hb] at h; simp at h
        | some st3 =>
          rw [hb] at h
          rw [Option.some_inj] at h
          subst h
          exact buildStep_reach source root
            (fun d s s' hrd hh hall => ih d s s' hrd hh hall)
            (source p) _ st3
            (fun d hd => Relation.ReflTransGen.tail hp hd) hb hst2

theorem buildStep_closure {f : String → BuildState → Option BuildState}
    (source : String → List String)
    (hok : ∀ d s s', f d s = some s' → StepOK s s')
    (hf : ∀ d s s', s.path ⊆ s.visited → f d s = some s' →
      d ∈ s'.visited ∧
      (∀ q ∈ s'.visited, q ∈ s.visited ∨ ∀ e ∈ source q, e ∈ s'.visited)) :
    ∀ (ds : List String) (s s' : BuildState),
      s.path ⊆ s.visited → buildStep f ds s = some s' →
      (∀ d ∈ ds, d ∈ s'.visited) ∧
      (∀ q ∈ s'.visited, q ∈ s.visited ∨ ∀ e ∈ source q, e ∈ s'.visited) := by
  intro ds
  induction ds with
  | nil =>
    intro s s' _ h
    simp only [buildStep, Option.some_inj] at h
    subst h
    exact ⟨by simp, fun q hq => Or.inl hq⟩
  | cons d ds ihds =>
    intro s s' hps h
    simp only [buildStep] at h
    cases hd : f d s with
    | none => rw [hd] at h; simp at h
    | some s1 =>
      rw [hd] at h
      obtain ⟨hd1, hd2⟩ := hf d s s1 hps hd
      obtain ⟨hv1, hp1, -⟩ := hok d s s1 hd
      have hps1 : s1.path ⊆ s1.visited := by
        rw [hp1]
        exact hps.trans hv1
      obtain ⟨hall, hcl⟩ := ihds s1 s' hps1 h
      have hmono1 : s1.visited ⊆ s'.visited :=
        (buildStep_stepOK hok ds s1 s' h).1
      constructor
      · intro d' hd'
        rcases List.mem_cons.mp hd' with rfl | hmem
        · exact hmono1 hd1
        · exact hall d' hmem
      · intro q hq
        rcases hcl q hq with hq1 | hq2
        · rcases hd2 q hq1 with hq3 | hq4
          · exact Or.inl hq3
          · exact Or.inr (fun e he => hmono1 (hq4 e he))
        · exact Or.inr hq2

theorem build_closure (source : String → List String) :
    ∀ (fuel : Nat) (p : String) (st st' : BuildState),
      st.path ⊆ st.visited →
      build_dependency_graph source fuel p st = some st' →
      p ∈ st'.visited ∧
      (∀ q ∈ st'.visited, q ∈ st.visited ∨ ∀ e ∈ source q, e ∈ st'.visited) := by
  intro fuel
  induction fuel with
  | zero =>
    intro p st st' _ h
    rw [build_zero] at h
    exact absurd h (by simp)
  | succ fuel ih =>
    intro p st st' hps h
    rw [build_succ] at h
    by_cases h1 : p ∈ st.path
    · simp only [h1, if_true, Option.some_inj] at h
      subst h
      exact ⟨hps h1, fun q hq => Or.inl hq⟩
    · simp only [h1, if_false] at h
      by_cases h2 : p ∈ st.visited
      · simp only [h2, if_true, Option.some_inj] at h
        subst h
        exact ⟨h2, fun q hq => Or.inl hq⟩
      · simp only [h2, if_false] at h
        cases hb : buildStep (build_dependency_graph source fuel) (source p)
            ⟨p :: st.visited, p :: st.path, dictSet st.graph p (source p),
             st.lookups ++ [p]⟩ with
        | none => rw [hb] at h; simp at h
        | some st3 =>
          rw [hb] at h
          rw [Option.some_inj] at h
          subst h
          have hps2 : (⟨p :: st.visited, p :: st.path,
              dictSet st.graph p (source p),
              st.lookups ++ [p]⟩ : BuildState).path ⊆
              (⟨p :: st.visited, p :: st.path,
                dictSet st.graph p (source p),
                st.lookups ++ [p]⟩ : BuildState).visited := by
            intro x hx
            rcases List.mem_cons.mp hx with rfl | hmem
            · exact List.mem_cons_self _ _
            · exact List.mem_cons_of_mem _ (hps hmem)
          obtain ⟨hall, hcl⟩ := buildStep_closure source
            (fun d s s' hh => build_stepOK source fuel d s s' hh)
            (fun d s s' hp2 hh => ih d s s' hp2 hh)
            (source p) _ st3 hps2 hb
          have hpin : p ∈ st3.visited :=
            (buildStep_stepOK (fun d s s' hh => build_stepOK source fuel d s s' hh)
              _ _ _ hb).1 (List.mem_cons_self _ _)
          refine ⟨hpin, ?_⟩
          intro q hq
          rcases hcl q hq with hq1 | hq2
          · rcases List.mem_cons.mp hq1 with rfl | hmem
            · exact Or.inr (fun e he => hall e he)
            · exact Or.inl hmem
          · exact Or.inr hq2

theorem acyclic_of_empty_source : AcyclicSource (fun _ => []) := by
  intro p h
  cases h with
  | single hs => exact absurd hs (List.not_mem_nil _)
  | tail h1 hs => exact absurd hs (List.not_mem_nil _)

/-- C4: for every acyclic dependency source, a completed build from a
fresh state performs exactly one lookup call per distinct package name
reachable from the root — the lookup log is duplicate-free, and a
package appears in it exactly when it is reachable — no matter how many
packages depend on it.  (The proof never uses the acyclicity
hypothesis: the `visited` check alone already guarantees the property,
cycles or not.) -/
theorem C4_one_lookup_per_reachable (source : String → List String)
    (fuel : Nat) (root : String) (st' : BuildState)
    (hacyclic : AcyclicSource source)
    (hrun : build_dependency_graph source fuel root initState = some st') :
    st'.lookups.Nodup ∧ ∀ p, p ∈ st'.lookups ↔ Reaches source root p := by
  have hlv : LookVis st' :=
    build_lookVis source fuel root initState st' hrun
      ⟨fun x => by simp [initState], by simp [initState]⟩
  have hsound : ∀ q ∈ st'.visited, Reaches source root q :=
    build_reach source root fuel root initState st' Relation.ReflTransGen.refl
      hrun (by simp [initState])
  have hcl := build_closure source fuel root initState st'
    (by simp [initState]) hrun
  have hcomplete : ∀ p, Reaches source root p → p ∈ st'.visited := by
    intro p hr
    induction hr with
    | refl => exact hcl.1
    | tail hab hbc ihr =>
      rcases hcl.2 _ ihr with hin | hall
      · exact absurd hin (by simp [initState])
      · exact hall _ hbc
  exact ⟨hlv.2, fun p =>
    ⟨fun hp => hsound p ((hlv.1 p).mp hp),
     fun hr => (hlv.1 p).mpr (hcomplete p hr)⟩⟩

/-- C4 witness: the empty-dependency source (vacuously acyclic) rooted
at `a` looks up exactly the one reachable package. -/
theorem C4_one_lookup_per_reachable_witness :
    (["a"] : List String).Nodup ∧
    ∀ p, p ∈ (["a"] : List String) ↔ Reaches (fun _ => []) "a" p := by
  have h := C4_one_lookup_per_reachable (fun _ => []) 1 "a"
    ⟨["a"], [], [("a", [])], ["a"]⟩ acyclic_of_empty_source (by decide)
  exact h

theorem bfs_step_inv (graph : Graph) (root pkg : String) (level : Nat)
    (hpkg : GReaches graph root pkg) :
    ∀ (ds : List String) (queue levels : List (String × Nat)),
      (∀ d ∈ ds, d ∈ dictGetD graph pkg) →
      dictGet levels pkg = some level →
      BfsInv graph root queue levels →
      BfsInv graph root (bfs_step level ds queue levels).1
        (bfs_step level ds queue levels).2 := by
  intro ds
  induction ds with
  | nil =>
    intro queue levels _ _ hinv
    exact hinv
  | cons d ds ihds =>
    intro queue levels hds hpl hinv
    simp only [bfs_step]
    by_cases hlev : (dictGet levels d).isSome = true
    · simp only [hlev, if_true]
      exact ihds queue levels (fun d' hd' => hds d' (by simp [hd'])) hpl hinv
    · simp only [hlev, if_false]
      have hnone : dictGet levels d = none := by
        cases hg : dictGet levels d with
        | none => rfl
        | some v => rw [hg] at hlev; simp at hlev
      have hdroot : d ≠ root := by
        intro hcontra
        subst hcontra
        rw [hinv.1] at hnone
        simp at hnone
      apply ihds _ _ (fun d' hd' => hds d' (by simp [hd']))
        (dictGet_append_some hpl _)
      obtain ⟨hi1, hi2, hi3, hi4⟩ := hinv
      refine ⟨dictGet_append_some hi1 _, ?_, ?_, ?_⟩
      · intro e he
        rcases List.mem_append.mp he with hq | hq
        · exact dictGet_append_some (hi2 e hq) _
        · simp only [List.mem_singleton] at hq
          subst hq
          rw [dictGet_append_none hnone]
          simp [dictGet]
      · intro e he hne
        rcases List.mem_append.mp he with hl | hl
        · obtain ⟨k, Lk, hk1, hk2, hk3⟩ := hi3 e hl hne
          exact ⟨k, Lk, dictGet_append_some hk1 _, hk2, hk3⟩
        · simp only [List.mem_singleton] at hl
          subst hl
          exact ⟨pkg, level, dictGet_append_some hpl _, hds d (by simp),
            le_refl _⟩
      · intro e he
        rcases List.mem_append.mp he with hl | hl
        · exact hi4 e hl
        · simp only [List.mem_singleton] at hl
          subst hl
          exact Relation.ReflTransGen.tail hpkg (hds d (by simp))

theorem bfs_loop_inv (graph : Graph) (root : String) :
    ∀ (fuel : Nat) (queue levels levels' : List (String × Nat)),
      BfsInv graph root queue levels →
      bfs_loop graph fuel queue levels = some levels' →
      BfsInv graph root [] levels' := by
  intro fuel
  induction fuel with
  | zero =>
    intro queue levels levels' hinv h
    cases queue with
    | nil =>
      simp only [bfs_loop, Option.some_inj] at h
      subst h
      exact ⟨hinv.1, by simp, hinv.2.2⟩
    | cons e q => simp [bfs_loop] at h
  | succ fuel ih =>
    intro queue levels levels' hinv h
    cases queue with
    | nil =>
      simp only [bfs_loop, Option.some_inj] at h
      subst h
      exact ⟨hinv.1, by simp, hinv.2.2⟩
    | cons e q =>
      obtain ⟨pkg, level⟩ := e
      simp only [bfs_loop] at h
      obtain ⟨hi1, hi2, hi3, hi4⟩ := hinv
      have hpl : dictGet levels pkg = some level := hi2 (pkg, level) (by simp)
      have hreach : GReaches graph root pkg := hi4 (pkg, level) (dictGet_mem hpl)
      have hinv' : BfsInv graph root q levels :=
        ⟨hi1, fun e' he' => hi2 e' (by simp [he']), hi3, hi4⟩
      have hstep := bfs_step_inv graph root pkg level hreach
        (dictGetD graph pkg) q levels (fun d hd => hd) hpl hinv'
      exact ih _ _ levels' hstep h

/-- C5 (amended): for every non-empty graph whose first key is not the
empty string, a completed BFS layering assigns level 0 to that first
key (the root); every other levelled node has level at least 1 and a
graph-parent — a key whose stored dependency list contains it — that
is levelled at most one below; and every levelled node is reachable
from the root through stored edges (equivalently, nodes unreachable
from the root receive no level). -/
theorem C5_bfs_levels (graph : Graph) (root : String) (ds0 : List String)
    (rest : Graph) (fuel : Nat) (lv : List (String × Nat))
    (hg : graph = (root, ds0) :: rest) (hroot : root ≠ "")
    (hrun : bfs_levels graph fuel = some lv) :
    dictGet lv root = some 0 ∧
    (∀ n L, dictGet lv n = some L → n ≠ root →
      1 ≤ L ∧ ∃ k dk Lk, dictGet graph k = some dk ∧ n ∈ dk ∧
        dictGet lv k = some Lk ∧ Lk + 1 ≤ L) ∧
    (∀ n L, dictGet lv n = some L → GReaches graph root n) := by
  subst hg
  simp only [bfs_levels, hroot, if_false] at hrun
  have hinv0 : BfsInv ((root, ds0) :: rest) root [(root, 0)] [(root, 0)] := by
    refine ⟨by simp [dictGet], ?_, ?_, ?_⟩
    · intro e he
      simp only [List.mem_singleton] at he
      subst he
      simp [dictGet]
    · intro e he hne
      simp only [List.mem_singleton] at he
      subst he
      exact absurd rfl hne
    · intro e he
      simp only [List.mem_singleton] at he
      subst he
      exact Relation.ReflTransGen.refl
  have hfin := bfs_loop_inv ((root, ds0) :: rest) root fuel _ _ lv hinv0 hrun
  obtain ⟨hf1, -, hf3, hf4⟩ := hfin
  refine ⟨hf1, ?_, ?_⟩
  · intro n L hn hne
    obtain ⟨k, Lk, hk1, hk2, hk3⟩ := hf3 (n, L) (dictGet_mem hn) hne
    cases hdk : dictGet ((root, ds0) :: rest) k with
    | none =>
      rw [dictGetD, hdk] at hk2
      simp at hk2
    | some dk =>
      rw [dictGetD, hdk] at hk2
      simp only [Option.getD_some] at hk2
      exact ⟨by omega, k, dk, Lk, hdk, hk2, hk1, hk3⟩
  · intro n L hn
    exact hf4 (n, L) (dictGet_mem hn)

/-- C5 counterexample: the graph whose first key is the empty string is
non-empty, yet the Python `if root:` guard skips the whole BFS and the
root receives no level at all, contradicting the claim for this input. -/
theorem C5_counterexample :
    bfs_levels [("", ["x"])] 1 = some [] ∧
    ¬ dictGet ([] : List (String × Nat)) "" = some 0 := by decide

/-- C5 witness: the amended statement instantiated on the two-node
graph `A -> [B]`, `B -> []`. -/
theorem C5_bfs_levels_witness :
    dictGet [("A", 0), ("B", 1)] "A" = some 0 ∧
    (1 ≤ 1 ∧ ∃ k dk Lk,
      dictGet ([("A", ["B"]), ("B", [])] : Graph) k = some dk ∧ "B" ∈ dk ∧
      dictGet [("A", 0), ("B", 1)] k = some Lk ∧ Lk + 1 ≤ 1) ∧
    GReaches [("A", ["B"]), ("B", [])] "A" "B" := by
  obtain ⟨h1, h2, h3⟩ := C5_bfs_levels [("A", ["B"]), ("B", [])] "A" ["B"]
    [("B", [])] 2 [("A", 0), ("B", 1)] rfl (by decide) (by decide)
  exact ⟨h1, h2 "B" 1 (by decide) (by decide), h3 "B" 1 (by decide)⟩
